import Mathlib

/-!
Verification of the refxss scanner (src/main.go) against its specification.

Go strings are modelled as lists of characters (`GoStr`), at ASCII/byte
granularity: every concrete string exercised here is ASCII, where one Go byte
is one `Char`.  Pure Go functions become Lean functions; the HTTP layer is an
oracle (`World`) mapping request URLs to optional responses, and Go's
`url.Parse` is an oracle mapping a URL string to its parsed form.
-/

namespace RefXss

/-- A Go string, as its list of (ASCII) characters. -/
abbrev GoStr := List Char

/-- Conversion from a Lean string literal to the Go string model. -/
def gs (s : String) : GoStr := s.data

/-- `isPrefixB pre s` decides whether `pre` is a prefix of `s`
(Boolean counterpart of Go's `strings.HasPrefix`). -/
def isPrefixB : GoStr → GoStr → Bool
  | [], _ => true
  | _ :: _, [] => false
  | a :: as, b :: bs => a = b && isPrefixB as bs

/-- Go's `strings.Contains s sub`: `sub` occurs as a contiguous substring of
`s`.  Note `strings.Contains s "" = true` for every `s`, which the model
reproduces. -/
def strContains : GoStr → GoStr → Bool
  | [], sub => sub.isEmpty
  | s@(_ :: rest), sub => isPrefixB sub s || strContains rest sub

/-- `normalizeURL` from src/main.go: a `strings.NewReplacer` replacing the
literal sequences `\\?`, `\?`, `\=`, `\&` by `?`, `?`, `=`, `&`.  The four
patterns are mutually exclusive at any position (they differ in their second
character), so the replacer's left-to-right, non-overlapping scan is exactly
this pattern match. -/
def normalizeURL : GoStr → GoStr
  | '\\' :: '\\' :: '?' :: rest => '?' :: normalizeURL rest
  | '\\' :: '?' :: rest => '?' :: normalizeURL rest
  | '\\' :: '=' :: rest => '=' :: normalizeURL rest
  | '\\' :: '&' :: rest => '&' :: normalizeURL rest
  | c :: rest => c :: normalizeURL rest
  | [] => []

/-- The string has no two consecutive backslashes. -/
def noDoubleBackslash : GoStr → Bool
  | '\\' :: '\\' :: _ => false
  | _ :: rest => noDoubleBackslash rest
  | [] => true

/-- No replacer pattern occurs in the string: no backslash is immediately
followed by `?`, `=` or `&` (and hence no `\\?` occurrence either). -/
def noPattern : GoStr → Bool
  | '\\' :: '?' :: _ => false
  | '\\' :: '=' :: _ => false
  | '\\' :: '&' :: _ => false
  | _ :: rest => noPattern rest
  | [] => true


/-- Uppercase hexadecimal digit of a nibble, as in net/url's `"0123456789ABCDEF"`. -/
def upperhex (n : Nat) : Char := if n < 10 then Char.ofNat (48 + n) else Char.ofNat (55 + n)

/-- net/url's `shouldEscape` in query-component mode: ASCII alphanumerics and
`-`, `_`, `.`, `~` stay, everything else is escaped. -/
def shouldEscapeQuery (c : Char) : Bool :=
  !((97 ≤ c.toNat && c.toNat ≤ 122) || (65 ≤ c.toNat && c.toNat ≤ 90) ||
    (48 ≤ c.toNat && c.toNat ≤ 57) || c = '-' || c = '_' || c = '.' || c = '~')

/-- One character of `url.QueryEscape`: space becomes `+`, other escaped
characters become `%XX` with uppercase hex. -/
def queryEscapeChar (c : Char) : GoStr :=
  if c = ' ' then ['+']
  else if shouldEscapeQuery c then ['%', upperhex (c.toNat / 16), upperhex (c.toNat % 16)]
  else [c]

/-- Go's `url.QueryEscape`, at ASCII/byte granularity. -/
def queryEscape (s : GoStr) : GoStr := s.flatMap queryEscapeChar

/-- `strings.ReplaceAll val " " "+"`. -/
def replaceSpacePlus (s : GoStr) : GoStr := s.map fun c => if c = ' ' then '+' else c

/-- Go's `url.Values`: a map from parameter names to value lists, modelled as
an association list whose keys are distinct; the list order stands for the
map's (unspecified) iteration order. -/
abbrev Values := List (GoStr × List GoStr)

/-- `url.Values.Get`: first value of the key, empty string when the key is
absent or its value list is empty. -/
def valuesGet (q : Values) (k : GoStr) : GoStr :=
  match q.find? (fun kv => kv.1 = k) with
  | some kv => kv.2.headD []
  | none => []

/-- `url.Values.Set`: the key's whole value list is replaced by the single
value `v` (the entry is created when absent). -/
def valuesSet (q : Values) (k : GoStr) (v : GoStr) : Values :=
  if q.any (fun kv => kv.1 = k) then
    q.map (fun kv => if kv.1 = k then (k, [v]) else kv)
  else q ++ [(k, [v])]

/-- The value list stored under a key, if any. -/
def valuesLookup (q : Values) (k : GoStr) : Option (List GoStr) :=
  (q.find? (fun kv => kv.1 = k)).map (·.2)

/-- Go's bytewise `≤` on strings (`sort.Strings` order). -/
def strLe : GoStr → GoStr → Bool
  | [], _ => true
  | _ :: _, [] => false
  | a :: as, b :: bs => if a = b then strLe as bs else decide (a < b)

/-- Insertion into a `strLe`-sorted list. -/
def insertSorted (k : GoStr) : List GoStr → List GoStr
  | [] => [k]
  | x :: xs => if strLe k x then k :: x :: xs else x :: insertSorted k xs

/-- `sort.Strings` on the key slice: the keys in nondecreasing `strLe` order. -/
def sortStrings (l : List GoStr) : List GoStr := l.foldr insertSorted []

/-- `url.Values.Encode`: keys in sorted order, each pair rendered as
`QueryEscape k = QueryEscape v`, pairs joined with `&`. -/
def encodeQuery (q : Values) : GoStr :=
  List.intercalate ['&']
    ((sortStrings (q.map (·.1))).flatMap fun k =>
      ((valuesLookup q k).getD []).map fun v => queryEscape k ++ '=' :: queryEscape v)

/-- An HTTP response, as far as the scanner inspects it. -/
structure Resp where
  contentType : GoStr
  body : GoStr

/-- The parsed form of a URL: everything before the query plus the parsed
query map (`url.Parse` followed by `.Query()`). -/
structure URLParts where
  base : GoStr
  query : Values

/-- The environment of one scan: `net` is the request executor (`doRequest`'s
outcome keyed by the full request URL, `none` a failed request), `parse` is
`url.Parse` (`none` a parse error). -/
structure World where
  net : GoStr → Option Resp
  parse : GoStr → Option URLParts

/-- `doRequest`: on success the response and its body, on failure `(nil, "")`. -/
def doRequest (w : World) (target : GoStr) : Option Resp × GoStr :=
  match w.net target with
  | none => (none, [])
  | some r => (some r, r.body)

/-- The reflection test of src/main.go lines 168-170: the raw value, its
percent-encoded form, or its `+`-for-space form occurs in the body. -/
def reflectsValue (body val : GoStr) : Bool :=
  strContains body val || strContains body (queryEscape val) ||
    strContains body (replaceSpacePlus val)

/-- `findReflectedParams` from src/main.go: empty on request failure, on a
non-HTML content type and on a parse error; otherwise the names of the query
parameters whose value list is non-empty and whose first value reflects. -/
def findReflectedParams (w : World) (target : GoStr) : List GoStr :=
  match doRequest w target with
  | (none, _) => []
  | (some resp, body) =>
    if !strContains resp.contentType (gs ("html")) then []
    else
      match w.parse target with
      | none => []
      | some u =>
        (u.query.filter fun kv => !kv.2.isEmpty && reflectsValue body (kv.2.headD [])).map (·.1)

/-- The fixed probe set of `testSpecialChars`, in source order:
`" ' < > $ | ( ) ` : ; { }`. -/
def specialChars : List GoStr :=
  [[Char.ofNat 34], [Char.ofNat 39], [Char.ofNat 60], [Char.ofNat 62], [Char.ofNat 36],
   [Char.ofNat 124], [Char.ofNat 40], [Char.ofNat 41], [Char.ofNat 96], [Char.ofNat 58],
   [Char.ofNat 59], [Char.ofNat 123], [Char.ofNat 125]]

/-- The marker constant `prefix = "aprefix"` of src/main.go. -/
def preMarker : GoStr := gs ("aprefix")

/-- The marker constant `suffix = "asuffix"` of src/main.go. -/
def sufMarker : GoStr := gs ("asuffix")

/-- The query built by `checkAppend`: `q.Set(param, q.Get(param)+payload)`. -/
def probeQuery (q : Values) (param payload : GoStr) : Values :=
  valuesSet q param (valuesGet q param ++ payload)

/-- `u.String()` after `u.RawQuery` is set: base plus `?` plus the raw query
(just the base when the query is empty). -/
def urlWithQuery (base rawQuery : GoStr) : GoStr :=
  if rawQuery.isEmpty then base else base ++ '?' :: rawQuery

/-- The URL requested by `checkAppend` for a parsed target. -/
def probeTarget (u : URLParts) (param payload : GoStr) : GoStr :=
  urlWithQuery u.base (encodeQuery (probeQuery u.query param payload))

/-- `checkAppend` from src/main.go: false on a parse error; otherwise request
the probe URL and test whether the payload occurs in the body (the empty body
of a failed request contains no payload). -/
def checkAppend (w : World) (target param payload : GoStr) : Bool :=
  match w.parse target with
  | none => false
  | some u => strContains (doRequest w (probeTarget u param payload)).2 payload

/-- `testSpecialChars` from src/main.go: the probe characters, in source
order, whose payload `prefix + c + suffix` survives `checkAppend`. -/
def testSpecialChars (w : World) (target param : GoStr) : List GoStr :=
  specialChars.filter fun c => checkAppend w target param (preMarker ++ c ++ sufMarker)

/-- One finding sent over the results channel. -/
structure Finding where
  url : GoStr
  param : GoStr
  chars : List GoStr

/-- One step of the aggregation loop (src/main.go line 115):
`grouped[r.URL][r.Param] = r.Chars`; the grouped map is modelled as a
function from URL and parameter name to the optional character list. -/
def insertFinding (m : GoStr → GoStr → Option (List GoStr)) (r : Finding) :
    GoStr → GoStr → Option (List GoStr) :=
  fun u p => if u = r.url ∧ p = r.param then some r.chars else m u p

/-- The empty grouped report. -/
def emptyReport : GoStr → GoStr → Option (List GoStr) := fun _ _ => none

/-- The aggregation loop over the findings in their arrival order. -/
def aggregate (fs : List Finding) : GoStr → GoStr → Option (List GoStr) :=
  fs.foldl insertFinding emptyReport

/-- What one worker does with one input line (src/main.go lines 74-87):
normalize, detect reflected parameters, probe each, and emit the findings
whose character list is non-empty. -/
def processURL (w : World) (rawURL : GoStr) : List Finding :=
  (findReflectedParams w (normalizeURL rawURL)).filterMap fun p =>
    let chars := testSpecialChars w (normalizeURL rawURL) p
    if chars.isEmpty then none else some ⟨normalizeURL rawURL, p, chars⟩

/-- ASCII whitespace, as trimmed by `strings.TrimSpace`. -/
def isSpaceChar (c : Char) : Bool :=
  c = ' ' || c = '\t' || c = '\n' || c.toNat = 11 || c.toNat = 12 || c = '\r'

/-- `strings.TrimSpace` at ASCII granularity. -/
def trimSpace (l : GoStr) : GoStr :=
  List.rdropWhile isSpaceChar (List.dropWhile isSpaceChar l)

/-- The stdin loop of src/main.go lines 96-104: every line trimmed, lines
that trim to the empty string skipped. -/
def readLines (lines : List GoStr) : List GoStr :=
  lines.filterMap fun l => if (trimSpace l).isEmpty then none else some (trimSpace l)

/-- The findings produced by a whole scan, in the order the input lines are
drained by a single worker; the concurrent schedule delivers some permutation
of them to the aggregator. -/
def runScan (w : World) (lines : List GoStr) : List Finding :=
  (readLines lines).flatMap (processURL w)

/-- A world for the empty-value test: every request answers with an HTML page
whose body is `zzz`, and the target parses to the single parameter `p` whose
first (and only) value is the empty string, as `url.Parse` produces for
`http://x/a?p=`. -/
def emptyValueWorld : World where
  net := fun _ => some ⟨gs ("text/html"), gs ("zzz")⟩
  parse := fun _ => some ⟨gs ("http://x/a"), [(gs ("p"), [[]])]⟩

/-- A world whose target has the two reflected parameters `a` and `b`, with
the query map iterated in the order `a`, `b`. -/
def twoParamWorldAB : World where
  net := fun _ => some ⟨gs ("text/html"), gs ("v")⟩
  parse := fun _ => some ⟨gs ("http://x/a"), [(gs ("a"), [gs ("v")]), (gs ("b"), [gs ("v")])]⟩

/-- The same world with the query map iterated in the order `b`, `a`; Go's
`range` over a map may produce either order, even within one run. -/
def twoParamWorldBA : World where
  net := fun _ => some ⟨gs ("text/html"), gs ("v")⟩
  parse := fun _ => some ⟨gs ("http://x/a"), [(gs ("b"), [gs ("v")]), (gs ("a"), [gs ("v")])]⟩

/-- No two findings disagree: any two findings for the same URL and the same
parameter carry the same character list. -/
abbrev ConsistentFindings (fs : List Finding) : Prop :=
  ∀ f ∈ fs, ∀ g ∈ fs, f.url = g.url → f.param = g.param → f.chars = g.chars

/-- Sample finding: URL `u`, parameter `p`, characters `<`. -/
def findingA : Finding := ⟨gs ("u"), gs ("p"), [[Char.ofNat 60]]⟩

/-- Sample finding for the same URL and parameter as `findingA` but with a
different character list. -/
def findingB : Finding := ⟨gs ("u"), gs ("p"), [[Char.ofNat 62]]⟩

/-- Sample finding for a different URL and parameter. -/
def findingC : Finding := ⟨gs ("u2"), gs ("q"), [[Char.ofNat 62]]⟩


/-- A world where every request answers with an HTML page whose body is
`hello`, and the target parses to the single parameter `q` with first value
`hello`. -/
def reflWorld : World where
  net := fun _ => some ⟨gs ("text/html"), gs ("hello")⟩
  parse := fun _ => some ⟨gs ("http://x/a"), [(gs ("q"), [gs ("hello")])]⟩

/-- A world whose every response is HTML with body `aprefix"asuffix`: among
the thirteen probe payloads exactly the one for `"` occurs in the body.  The
target parses to the single parameter `q` with value `a`. -/
def probeWorld : World where
  net := fun _ => some ⟨gs ("text/html"), gs ("aprefix\"asuffix")⟩
  parse := fun _ => some ⟨gs ("u"), [(gs ("q"), [gs ("a")])]⟩

/-- A world where every request fails and the target parses to the single
parameter `q` with value `a`. -/
def failWorld : World where
  net := fun _ => none
  parse := fun _ => some ⟨gs ("u"), [(gs ("q"), [gs ("a")])]⟩

/-- A sample query map: `q` with the two values `a`, `b`, and `r` with `c`. -/
def qSample : Values := [(gs ("q"), [gs ("a"), gs ("b")]), (gs ("r"), [gs ("c")])]


theorem normalizeURL_of_noPattern (l : GoStr) (h : noPattern l = true) :
    normalizeURL l = l := by
  induction l using normalizeURL.induct with
  | case1 rest ih => simp [noPattern] at h
  | case2 rest ih => simp [noPattern] at h
  | case3 rest ih => simp [noPattern] at h
  | case4 rest ih => simp [noPattern] at h
  | case5 c rest h1 h2 h3 h4 ih =>
    have hrest : noPattern rest = true := by
      cases rest with
      | nil => rfl
      | cons d rest2 =>
        by_cases hc : c = '\\'
        · have hd1 : d ≠ '?' := fun hd => h2 rest2 hc (by rw [hd])
          have hd2 : d ≠ '=' := fun hd => h3 rest2 hc (by rw [hd])
          have hd3 : d ≠ '&' := fun hd => h4 rest2 hc (by rw [hd])
          simpa [noPattern, hd1, hd2, hd3] using h
        · simpa [noPattern, hc] using h
    rw [normalizeURL, ih hrest]
    exacts [h1, h2, h3, h4]
  | case6 => rfl

theorem normalizeURL_cons_of_ne (c : Char) (hc : c ≠ '\\') (rest : GoStr) :
    normalizeURL (c :: rest) = c :: normalizeURL rest := by
  rw [normalizeURL]
  exacts [fun _ h _ => hc h, fun _ h _ => hc h, fun _ h _ => hc h, fun _ h _ => hc h]

theorem noPattern_cons_of_ne (c : Char) (hc : c ≠ '\\') (rest : GoStr) :
    noPattern (c :: rest) = noPattern rest := by
  rw [noPattern]
  exacts [fun _ h _ => hc h, fun _ h _ => hc h, fun _ h _ => hc h]

theorem noDoubleBackslash_tail (c : Char) (rest : GoStr)
    (h : noDoubleBackslash (c :: rest) = true) : noDoubleBackslash rest = true := by
  cases rest with
  | nil => rfl
  | cons d rest2 =>
    by_cases hcd : c = '\\' ∧ d = '\\'
    · obtain ⟨rfl, rfl⟩ := hcd
      simp [noDoubleBackslash] at h
    · rw [noDoubleBackslash] at h
      · exact h
      · intro t hc hr
        injection hr with hd _
        exact hcd ⟨hc, hd⟩

theorem noPattern_normalizeURL (l : GoStr) (h : noDoubleBackslash l = true) :
    noPattern (normalizeURL l) = true := by
  induction l using normalizeURL.induct with
  | case1 rest ih => simp [noDoubleBackslash] at h
  | case2 rest ih =>
    rw [normalizeURL, noPattern_cons_of_ne _ (by decide)]
    exact ih (noDoubleBackslash_tail _ _ (noDoubleBackslash_tail _ _ h))
  | case3 rest ih =>
    rw [normalizeURL, noPattern_cons_of_ne _ (by decide)]
    exact ih (noDoubleBackslash_tail _ _ (noDoubleBackslash_tail _ _ h))
  | case4 rest ih =>
    rw [normalizeURL, noPattern_cons_of_ne _ (by decide)]
    exact ih (noDoubleBackslash_tail _ _ (noDoubleBackslash_tail _ _ h))
  | case5 c rest h1 h2 h3 h4 ih =>
    have hrest : noDoubleBackslash rest = true := noDoubleBackslash_tail _ _ h
    have hIH : noPattern (normalizeURL rest) = true := ih hrest
    rw [normalizeURL]
    · by_cases hc : c = '\\'
      · subst hc
        cases rest with
        | nil => decide
        | cons d rest2 =>
          have hd0 : d ≠ '\\' := by
            intro hd
            subst hd
            simp [noDoubleBackslash] at h
          have hd1 : d ≠ '?' := fun hd => h2 rest2 rfl (by rw [hd])
          have hd2 : d ≠ '=' := fun hd => h3 rest2 rfl (by rw [hd])
          have hd3 : d ≠ '&' := fun hd => h4 rest2 rfl (by rw [hd])
          rw [normalizeURL_cons_of_ne d hd0]
          rw [normalizeURL_cons_of_ne d hd0] at hIH
          rw [noPattern]
          · exact hIH
          · intro t _ hr
            injection hr with hd _
            exact hd1 hd
          · intro t _ hr
            injection hr with hd _
            exact hd2 hd
          · intro t _ hr
            injection hr with hd _
            exact hd3 hd
      · rw [noPattern_cons_of_ne c hc]
        exact hIH
    exacts [h1, h2, h3, h4]
  | case6 => rfl

/-- A prefix of a `dropWhile`-fixed list is itself `dropWhile`-fixed. -/
theorem dropWhile_of_prefix_fixed {α : Type} {p : α → Bool} {B A : List α}
    (hBA : B <+: A) (hA : List.dropWhile p A = A) : List.dropWhile p B = B := by
  cases B with
  | nil => rfl
  | cons b B2 =>
    obtain ⟨t, ht⟩ := hBA
    have hAeq : A = b :: (B2 ++ t) := by rw [← ht]; rfl
    have hpb : p b = false := by
      by_contra hp
      have hp2 : p b = true := by
        cases hb : p b
        · exact absurd hb hp
        · rfl
      rw [hAeq, List.dropWhile_cons, if_pos hp2] at hA
      have hlen := congrArg List.length hA
      have hle := (List.dropWhile_suffix (l := B2 ++ t) p).length_le
      simp only [List.length_cons] at hlen
      omega
    rw [List.dropWhile_cons, if_neg (by simp [hpb])]

theorem trimSpace_idem (l : GoStr) : trimSpace (trimSpace l) = trimSpace l := by
  have h1 : List.dropWhile isSpaceChar (trimSpace l) = trimSpace l :=
    dropWhile_of_prefix_fixed (List.rdropWhile_prefix _ _)
      (List.dropWhile_idempotent isSpaceChar l)
  show List.rdropWhile isSpaceChar (List.dropWhile isSpaceChar (trimSpace l)) = trimSpace l
  rw [h1]
  exact List.rdropWhile_idempotent isSpaceChar (List.dropWhile isSpaceChar l)

theorem filterMap_guard_eq {α β : Type} (g : α → β) (p : β → Bool) (xs : List α) :
    xs.filterMap (fun x => if p (g x) then none else some (g x)) =
      (xs.map g).filter (fun t => !p t) := by
  induction xs with
  | nil => rfl
  | cons x xs ih =>
    cases h : p (g x) with
    | true => simp [List.filterMap_cons, List.filter_cons, h, ih]
    | false => simp [List.filterMap_cons, List.filter_cons, h, ih]

theorem readLines_eq_map_filter (lines : List GoStr) :
    readLines lines = (lines.map trimSpace).filter (fun t => !t.isEmpty) := by
  unfold readLines
  exact filterMap_guard_eq trimSpace List.isEmpty lines

/-- C2 (counterexample): `normalizeURL` is not idempotent.  On the input
`\\\?` (three backslashes and a question mark) one pass yields `\?`, which a
second pass rewrites to `?`. -/
theorem c2_normalizeURL_not_idempotent :
    normalizeURL (normalizeURL (gs ("\\\\\\?"))) ≠ normalizeURL (gs ("\\\\\\?")) := by decide

/-- C2 (amended): `normalizeURL (normalizeURL x) = normalizeURL x` for every
input `x` that contains no two consecutive backslashes. -/
theorem c2_normalizeURL_idempotent_of_noDoubleBackslash (l : GoStr)
    (h : noDoubleBackslash l = true) :
    normalizeURL (normalizeURL l) = normalizeURL l :=
  normalizeURL_of_noPattern _ (noPattern_normalizeURL l h)

/-- C2 witness: the escaped URL of the specification's scenario 4 has no two
consecutive backslashes, and normalizing it is idempotent. -/
theorem c2_witness :
    noDoubleBackslash (gs ("http:\\/\\/x\\/a\\?q\\=1\\&r\\=2")) = true ∧
    normalizeURL (normalizeURL (gs ("http:\\/\\/x\\/a\\?q\\=1\\&r\\=2"))) =
      normalizeURL (gs ("http:\\/\\/x\\/a\\?q\\=1\\&r\\=2")) :=
  ⟨by decide, c2_normalizeURL_idempotent_of_noDoubleBackslash _ (by decide)⟩

/-- C1: contrary to the claim, a parameter whose first value is the empty
string IS reported as reflected: the guard `len(v) == 0` only skips an empty
value LIST, and `strings.Contains body ""` is true for every body, so
`http://x/a?p=` yields the reflected parameter `p` even though the body `zzz`
has nothing to do with it. -/
theorem c1_empty_value_param_reported :
    findReflectedParams emptyValueWorld (gs ("http://x/a?p=")) = [gs ("p")] := by decide

/-- C4: the order of the names returned by `findReflectedParams` follows the
iteration order of the query map, which Go randomizes per `range`: the two
worlds hold the same query map (the entry lists are permutations of each
other) and the same responses, yet the outputs differ in order, so the order
is not deterministic per run. -/
theorem c4_output_order_follows_map_order :
    (twoParamWorldAB.parse (gs ("http://x/a?a=v&b=v")) |>.map URLParts.query |>.getD []).Perm
      (twoParamWorldBA.parse (gs ("http://x/a?a=v&b=v")) |>.map URLParts.query |>.getD []) ∧
    findReflectedParams twoParamWorldAB (gs ("http://x/a?a=v&b=v")) = [gs ("a"), gs ("b")] ∧
    findReflectedParams twoParamWorldBA (gs ("http://x/a?a=v&b=v")) = [gs ("b"), gs ("a")] ∧
    findReflectedParams twoParamWorldAB (gs ("http://x/a?a=v&b=v")) ≠
      findReflectedParams twoParamWorldBA (gs ("http://x/a?a=v&b=v")) := by
  refine ⟨by decide, by decide, by decide, by decide⟩

/-- C10: every input line is trimmed before being sent to a worker: the lines
delivered are exactly the non-blank trims in order, a whitespace-only line
trims to the empty string (and is hence skipped exactly like a blank line),
and every delivered line carries no surrounding whitespace (it is its own
trim) and is non-blank. -/
theorem c10_input_lines_trimmed (lines : List GoStr) :
    readLines lines = (lines.map trimSpace).filter (fun t => !t.isEmpty) ∧
    (∀ l, l.all isSpaceChar = true → trimSpace l = []) ∧
    (∀ t ∈ readLines lines, trimSpace t = t ∧ t ≠ []) := by
  refine ⟨readLines_eq_map_filter lines, ?_, ?_⟩
  · intro l hl
    have hdrop : List.dropWhile isSpaceChar l = [] :=
      List.dropWhile_eq_nil_iff.mpr (fun x hx => List.all_eq_true.mp hl x hx)
    show List.rdropWhile isSpaceChar (List.dropWhile isSpaceChar l) = []
    rw [hdrop]
    rfl
  · intro t ht
    obtain ⟨a, -, ha⟩ := List.mem_filterMap.mp ht
    by_cases h : (trimSpace a).isEmpty
    · rw [if_pos h] at ha
      exact absurd ha (by simp)
    · rw [if_neg h] at ha
      obtain rfl : trimSpace a = t := Option.some.inj ha
      refine ⟨trimSpace_idem a, ?_⟩
      intro h0
      rw [h0] at h
      exact h rfl

theorem foldl_insertFinding_of_not_mem (fs : List Finding)
    (m : GoStr → GoStr → Option (List GoStr)) (u p : GoStr)
    (h : ∀ f ∈ fs, ¬(u = f.url ∧ p = f.param)) :
    fs.foldl insertFinding m u p = m u p := by
  induction fs generalizing m with
  | nil => rfl
  | cons f fs ih =>
    rw [List.foldl_cons, ih _ (fun g hg => h g (List.mem_cons_of_mem f hg))]
    exact if_neg (h f (List.mem_cons_self f fs))

theorem foldl_insertFinding_of_mem (fs : List Finding)
    (m : GoStr → GoStr → Option (List GoStr)) (u p : GoStr) (cs : List GoStr)
    (hcons : ConsistentFindings fs)
    (h : ∃ f ∈ fs, u = f.url ∧ p = f.param ∧ f.chars = cs) :
    fs.foldl insertFinding m u p = some cs := by
  induction fs generalizing m with
  | nil => exact absurd h (by simp)
  | cons f fs ih =>
    rw [List.foldl_cons]
    have hconsTail : ConsistentFindings fs := fun a ha b hb =>
      hcons a (List.mem_cons_of_mem f ha) b (List.mem_cons_of_mem f hb)
    by_cases hrest : ∃ g ∈ fs, u = g.url ∧ p = g.param ∧ g.chars = cs
    · exact ih _ hconsTail hrest
    · obtain ⟨g, hg, hgu, hgp, hgc⟩ := h
      rcases List.mem_cons.mp hg with hgf | hgfs
      · subst hgf
        have hnone : ∀ g' ∈ fs, ¬(u = g'.url ∧ p = g'.param) := by
          rintro g' hg' ⟨hu', hp'⟩
          refine hrest ⟨g', hg', hu', hp', ?_⟩
          have := hcons g' (List.mem_cons_of_mem g hg') g (List.mem_cons_self g fs)
            (hu' ▸ hgu ▸ rfl) (hp' ▸ hgp ▸ rfl)
          rw [this, hgc]
        rw [foldl_insertFinding_of_not_mem fs _ u p hnone]
        show insertFinding m g u p = some cs
        unfold insertFinding
        rw [if_pos ⟨hgu, hgp⟩, hgc]
      · exact absurd ⟨g, hgfs, hgu, hgp, hgc⟩ hrest

/-- C3 (counterexample): the claim fails on multisets that contain two
findings for the same URL and parameter with different character lists: the
aggregator's map assignment makes the later finding overwrite the earlier, so
the two arrival orders of `findingA` and `findingB` produce different
reports. -/
theorem c3_aggregate_order_dependent :
    aggregate [findingA, findingB] (gs ("u")) (gs ("p")) ≠
      aggregate [findingB, findingA] (gs ("u")) (gs ("p")) := by decide

/-- C3 (amended): for a multiset of findings in which no two findings carry
the same URL and parameter with different character lists, any two arrival
orders fold to an identical grouped report (same URL keys, same parameter
keys, same character lists at every point). -/
theorem c3_aggregate_perm_invariant (fs1 fs2 : List Finding)
    (hcons : ConsistentFindings fs1) (hperm : fs1.Perm fs2) (u p : GoStr) :
    aggregate fs1 u p = aggregate fs2 u p := by
  have hcons2 : ConsistentFindings fs2 := fun a ha b hb =>
    hcons a (hperm.mem_iff.mpr ha) b (hperm.mem_iff.mpr hb)
  by_cases h : ∃ f ∈ fs1, u = f.url ∧ p = f.param
  · obtain ⟨f, hf, hu, hp⟩ := h
    have h1 : aggregate fs1 u p = some f.chars :=
      foldl_insertFinding_of_mem _ _ _ _ _ hcons ⟨f, hf, hu, hp, rfl⟩
    have h2 : aggregate fs2 u p = some f.chars :=
      foldl_insertFinding_of_mem _ _ _ _ _ hcons2 ⟨f, hperm.mem_iff.mp hf, hu, hp, rfl⟩
    rw [h1, h2]
  · have h1 : aggregate fs1 u p = none :=
      foldl_insertFinding_of_not_mem _ _ _ _ (fun f hf hc => h ⟨f, hf, hc⟩)
    have h2 : aggregate fs2 u p = none :=
      foldl_insertFinding_of_not_mem _ _ _ _
        (fun f hf hc => h ⟨f, hperm.mem_iff.mpr hf, hc⟩)
    rw [h1, h2]

/-- C3 witness: a concrete consistent pair of findings, aggregated in both
orders, agrees at the point of `findingA`. -/
theorem c3_witness :
    ConsistentFindings [findingA, findingC] ∧
    aggregate [findingA, findingC] (gs ("u")) (gs ("p")) =
      aggregate [findingC, findingA] (gs ("u")) (gs ("p")) :=
  ⟨by decide, c3_aggregate_perm_invariant _ _ (by decide)
    (List.Perm.swap findingC findingA []) _ _⟩

/-- C10 witness: a whitespace-only line trims to blank, and the delivered
lines of a concrete input are their own trims and non-blank. -/
theorem c10_witness :
    trimSpace (gs (" \t ")) = [] ∧
    ∀ t ∈ readLines [gs ("  a  ")], trimSpace t = t ∧ t ≠ [] :=
  ⟨(c10_input_lines_trimmed [gs (" \t ")]).2.1 _ (by decide),
   (c10_input_lines_trimmed [gs ("  a  ")]).2.2⟩

theorem mem_map_fst_filter_iff (P : GoStr × List GoStr → Bool) (q : Values) (k : GoStr)
    (vs : List GoStr) (hnd : (q.map Prod.fst).Nodup) (hkv : (k, vs) ∈ q) :
    k ∈ (q.filter P).map Prod.fst ↔ P (k, vs) = true := by
  constructor
  · intro hk
    obtain ⟨kv, hkvf, hfst⟩ := List.mem_map.mp hk
    obtain ⟨hkvq, hP⟩ := List.mem_filter.mp hkvf
    have hkveq : kv = (k, vs) := List.inj_on_of_nodup_map hnd hkvq hkv hfst
    rw [hkveq] at hP
    exact hP
  · intro hP
    exact List.mem_map.mpr ⟨(k, vs), List.mem_filter.mpr ⟨hkv, hP⟩, rfl⟩

/-- C5: for a parameter with a non-empty first value `v`, under a successful
request whose content type contains `html` and a successful parse,
`findReflectedParams` reports the parameter exactly when the raw value, its
`url.QueryEscape` form, or its `+`-for-space form occurs in the response
body. -/
theorem c5_reflected_iff_representation (w : World) (target : GoStr) (r : Resp)
    (u : URLParts) (k v : GoStr) (vs : List GoStr)
    (hnet : w.net target = some r)
    (hhtml : strContains r.contentType (gs ("html")) = true)
    (hparse : w.parse target = some u)
    (hnd : (u.query.map Prod.fst).Nodup)
    (hkv : (k, v :: vs) ∈ u.query) (_hv : v ≠ []) :
    k ∈ findReflectedParams w target ↔
      (strContains r.body v || strContains r.body (queryEscape v) ||
        strContains r.body (replaceSpacePlus v)) = true := by
  have hred : findReflectedParams w target =
      (u.query.filter fun kv => !kv.2.isEmpty &&
        reflectsValue r.body (kv.2.headD [])).map Prod.fst := by
    unfold findReflectedParams doRequest
    rw [hnet, hparse]
    simp [hhtml]
  rw [hred, mem_map_fst_filter_iff _ u.query k (v :: vs) hnd hkv]
  exact Iff.rfl

/-- C5 witness: in `reflWorld` the parameter `q` with value `hello` is
reported exactly according to the three-representation test. -/
theorem c5_witness :
    gs ("q") ∈ findReflectedParams reflWorld (gs ("http://x/a?q=hello")) ↔
      (strContains (gs ("hello")) (gs ("hello")) ||
        strContains (gs ("hello")) (queryEscape (gs ("hello"))) ||
        strContains (gs ("hello")) (replaceSpacePlus (gs ("hello")))) = true :=
  c5_reflected_iff_representation reflWorld (gs ("http://x/a?q=hello"))
    ⟨gs ("text/html"), gs ("hello")⟩ ⟨gs ("http://x/a"), [(gs ("q"), [gs ("hello")])]⟩
    (gs ("q")) (gs ("hello")) [] rfl (by decide) rfl (by decide) (by decide) (by decide)

/-- C6: a probe character is reported unfiltered exactly when the payload
`aprefix + c + asuffix` occurs verbatim in the probe response body, and the
reported characters form a subsequence of the fixed probe order. -/
theorem c6_unfiltered_iff_payload_echoed (w : World) (target param : GoStr)
    (u : URLParts) (hparse : w.parse target = some u) :
    (testSpecialChars w target param).Sublist specialChars ∧
    ∀ c ∈ specialChars,
      (c ∈ testSpecialChars w target param ↔
        strContains (doRequest w (probeTarget u param (preMarker ++ c ++ sufMarker))).2
          (preMarker ++ c ++ sufMarker) = true) := by
  refine ⟨List.filter_sublist _, fun c hc => ?_⟩
  have hck : checkAppend w target param (preMarker ++ c ++ sufMarker) =
      strContains (doRequest w (probeTarget u param (preMarker ++ c ++ sufMarker))).2
        (preMarker ++ c ++ sufMarker) := by
    unfold checkAppend
    rw [hparse]
  rw [testSpecialChars, List.mem_filter, and_iff_right hc]
  show checkAppend w target param (preMarker ++ c ++ sufMarker) = true ↔ _
  rw [hck]

/-- C6 witness: the `probeWorld` conclusion at the concrete target `u?q=a`
and parameter `q`. -/
theorem c6_witness :
    (testSpecialChars probeWorld (gs ("u?q=a")) (gs ("q"))).Sublist specialChars ∧
    ∀ c ∈ specialChars,
      (c ∈ testSpecialChars probeWorld (gs ("u?q=a")) (gs ("q")) ↔
        strContains (doRequest probeWorld (probeTarget ⟨gs ("u"), [(gs ("q"), [gs ("a")])]⟩
            (gs ("q")) (preMarker ++ c ++ sufMarker))).2 (preMarker ++ c ++ sufMarker) = true) :=
  c6_unfiltered_iff_payload_echoed probeWorld _ _ ⟨gs ("u"), [(gs ("q"), [gs ("a")])]⟩ rfl

/-- C7: failures degrade silently and locally: a failed GET makes
`findReflectedParams` return the empty list; a failed probe request leaves
the probed character filtered; and each step consults the executor at exactly
its own URL — two executors agreeing there behave identically, so one
request's failure cannot reach any other request's outcome, and there is no
retry that would consult the executor on a different answer. -/
theorem c7_failures_degrade (w : World) (target param : GoStr) (u : URLParts) :
    (w.net target = none → findReflectedParams w target = []) ∧
    (w.parse target = some u →
      ∀ c ∈ specialChars,
        w.net (probeTarget u param (preMarker ++ c ++ sufMarker)) = none →
        c ∉ testSpecialChars w target param) ∧
    (∀ w2 : World, w2.net target = w.net target → w2.parse target = w.parse target →
      findReflectedParams w2 target = findReflectedParams w target) ∧
    (∀ w2 : World, ∀ payload : GoStr, w2.parse target = w.parse target →
      w.parse target = some u →
      w2.net (probeTarget u param payload) = w.net (probeTarget u param payload) →
      checkAppend w2 target param payload = checkAppend w target param payload) := by
  refine ⟨?_, ?_, ?_, ?_⟩
  · intro hnet
    unfold findReflectedParams doRequest
    rw [hnet]
  · intro hparse c hc hnet hmem
    rw [testSpecialChars, List.mem_filter] at hmem
    have hck : checkAppend w target param (preMarker ++ c ++ sufMarker) = true := hmem.2
    simp only [checkAppend, hparse, doRequest, hnet] at hck
    have hfalse : (preMarker ++ c ++ sufMarker).isEmpty = true := hck
    rw [show preMarker = 'a' :: gs ("prefix") from rfl] at hfalse
    simp [List.cons_append] at hfalse
  · intro w2 hnet hparse
    unfold findReflectedParams doRequest
    rw [hnet, hparse]
  · intro w2 payload hparse2 hparse hnet2
    simp only [checkAppend, hparse2, hparse, doRequest, hnet2]

/-- C7 witness: in `failWorld` every request fails: the detector returns the
empty list, and the `<` probe is reported filtered. -/
theorem c7_witness :
    findReflectedParams failWorld (gs ("u?q=a")) = [] ∧
    [Char.ofNat 60] ∉ testSpecialChars failWorld (gs ("u?q=a")) (gs ("q")) :=
  ⟨(c7_failures_degrade failWorld (gs ("u?q=a")) (gs ("q"))
      ⟨gs ("u"), [(gs ("q"), [gs ("a")])]⟩).1 rfl,
   (c7_failures_degrade failWorld (gs ("u?q=a")) (gs ("q"))
      ⟨gs ("u"), [(gs ("q"), [gs ("a")])]⟩).2.1 rfl _ (by decide) rfl⟩

theorem strLe_total (a b : GoStr) : strLe a b = true ∨ strLe b a = true := by
  induction a generalizing b with
  | nil => exact Or.inl rfl
  | cons x xs ih =>
    cases b with
    | nil => exact Or.inr rfl
    | cons y ys =>
      by_cases hxy : x = y
      · subst hxy
        rcases ih ys with h | h
        · exact Or.inl (by rw [strLe, if_pos rfl]; exact h)
        · exact Or.inr (by rw [strLe, if_pos rfl]; exact h)
      · rcases lt_or_gt_of_ne hxy with h | h
        · exact Or.inl (by rw [strLe, if_neg hxy]; exact decide_eq_true h)
        · exact Or.inr (by rw [strLe, if_neg (Ne.symm hxy)]; exact decide_eq_true h)

theorem strLe_trans (a b c : GoStr) (hab : strLe a b = true) (hbc : strLe b c = true) :
    strLe a c = true := by
  induction a generalizing b c with
  | nil => rfl
  | cons x xs ih =>
    cases b with
    | nil => simp [strLe] at hab
    | cons y ys =>
      cases c with
      | nil => simp [strLe] at hbc
      | cons z zs =>
        rw [strLe] at hab hbc ⊢
        by_cases hxy : x = y
        · subst hxy
          rw [if_pos rfl] at hab
          by_cases hyz : x = z
          · subst hyz
            rw [if_pos rfl] at hbc ⊢
            exact ih ys zs hab hbc
          · rw [if_neg hyz] at hbc ⊢
            exact hbc
        · rw [if_neg hxy] at hab
          have hlt : x < y := of_decide_eq_true hab
          by_cases hyz : y = z
          · subst hyz
            rw [if_neg hxy]
            exact hab
          · rw [if_neg hyz] at hbc
            have hlt2 : y < z := of_decide_eq_true hbc
            have hxz : x < z := lt_trans hlt hlt2
            rw [if_neg (ne_of_lt hxz)]
            exact decide_eq_true hxz

theorem mem_insertSorted (k x : GoStr) (l : List GoStr) :
    x ∈ insertSorted k l ↔ x = k ∨ x ∈ l := by
  induction l with
  | nil => simp [insertSorted]
  | cons y ys ih =>
    rw [insertSorted]
    by_cases h : strLe k y
    · rw [if_pos h]
      simp [List.mem_cons]
    · rw [if_neg h]
      rw [List.mem_cons, ih, List.mem_cons]
      tauto

theorem pairwise_insertSorted (k : GoStr) (l : List GoStr)
    (h : l.Pairwise (fun a b => strLe a b = true)) :
    (insertSorted k l).Pairwise (fun a b => strLe a b = true) := by
  induction l with
  | nil => simp [insertSorted]
  | cons x xs ih =>
    rw [insertSorted]
    rcases List.pairwise_cons.mp h with ⟨hx, hxs⟩
    by_cases hkx : strLe k x
    · rw [if_pos hkx]
      refine List.pairwise_cons.mpr ⟨?_, h⟩
      intro z hz
      rcases List.mem_cons.mp hz with rfl | hz2
      · exact hkx
      · exact strLe_trans k x z hkx (hx z hz2)
    · rw [if_neg hkx]
      refine List.pairwise_cons.mpr ⟨?_, ih hxs⟩
      intro z hz
      rcases (mem_insertSorted k z xs).mp hz with hzk | hz2
      · rw [hzk]
        rcases strLe_total k x with h1 | h1
        · exact absurd h1 hkx
        · exact h1
      · exact hx z hz2

theorem sortStrings_pairwise (l : List GoStr) :
    (sortStrings l).Pairwise (fun a b => strLe a b = true) := by
  induction l with
  | nil => simp [sortStrings]
  | cons x xs ih => exact pairwise_insertSorted x _ ih

theorem find?_key_eq_of_nodup (q : Values) (p : GoStr) (vs : List GoStr)
    (hnd : (q.map Prod.fst).Nodup) (hkv : (p, vs) ∈ q) :
    q.find? (fun kv => kv.1 = p) = some (p, vs) := by
  induction q with
  | nil => simp at hkv
  | cons kv0 rest ih =>
    rw [List.map_cons, List.nodup_cons] at hnd
    rcases List.mem_cons.mp hkv with heq | hm
    · rw [← heq, List.find?_cons_of_pos _ (by simp)]
    · have hfst : kv0.1 ≠ p := fun hf =>
        hnd.1 (by rw [hf]; exact List.mem_map.mpr ⟨(p, vs), hm, rfl⟩)
      rw [List.find?_cons_of_neg _ (by simp [hfst])]
      exact ih hnd.2 hm

theorem valuesGet_eq_of_nodup (q : Values) (p v : GoStr) (vs : List GoStr)
    (hnd : (q.map Prod.fst).Nodup) (hkv : (p, v :: vs) ∈ q) :
    valuesGet q p = v := by
  unfold valuesGet
  rw [find?_key_eq_of_nodup q p (v :: vs) hnd hkv]
  rfl

theorem find?_setMap_self (q : Values) (p v : GoStr) :
    (q.map (fun kv => if kv.1 = p then (p, [v]) else kv)).find? (fun kv => kv.1 = p) =
      (q.find? (fun kv => kv.1 = p)).map (fun _ => (p, [v])) := by
  induction q with
  | nil => rfl
  | cons kv0 rest ih =>
    rw [List.map_cons]
    by_cases h0 : kv0.1 = p
    · rw [if_pos h0, List.find?_cons_of_pos _ (by simp),
        List.find?_cons_of_pos _ (by simp [h0])]
      rfl
    · rw [if_neg h0, List.find?_cons_of_neg _ (by simp [h0]),
        List.find?_cons_of_neg _ (by simp [h0])]
      exact ih

theorem find?_setMap_other (q : Values) (p v k : GoStr) (hk : k ≠ p) :
    (q.map (fun kv => if kv.1 = p then (p, [v]) else kv)).find? (fun kv => kv.1 = k) =
      q.find? (fun kv => kv.1 = k) := by
  induction q with
  | nil => rfl
  | cons kv0 rest ih =>
    rw [List.map_cons]
    by_cases h0 : kv0.1 = p
    · rw [if_pos h0, List.find?_cons_of_neg _ (by simp [Ne.symm hk]),
        List.find?_cons_of_neg _ (by simp [h0, Ne.symm hk])]
      exact ih
    · rw [if_neg h0]
      by_cases h1 : kv0.1 = k
      · rw [List.find?_cons_of_pos _ (by simp [h1]), List.find?_cons_of_pos _ (by simp [h1])]
      · rw [List.find?_cons_of_neg _ (by simp [h1]), List.find?_cons_of_neg _ (by simp [h1])]
        exact ih

theorem valuesLookup_valuesSet_self (q : Values) (p v : GoStr) :
    valuesLookup (valuesSet q p v) p = some [v] := by
  unfold valuesSet valuesLookup
  by_cases hany : q.any (fun kv => kv.1 = p)
  · rw [if_pos hany, find?_setMap_self]
    obtain ⟨x, hx, hpx⟩ := List.any_eq_true.mp hany
    cases hfind : q.find? (fun kv => kv.1 = p) with
    | none =>
      rw [List.find?_eq_none] at hfind
      exact absurd hpx (hfind x hx)
    | some kv => rfl
  · rw [if_neg hany, List.find?_append]
    have hnone : q.find? (fun kv => kv.1 = p) = none := by
      rw [List.find?_eq_none]
      intro x hx hpx
      exact hany (List.any_eq_true.mpr ⟨x, hx, hpx⟩)
    rw [hnone, List.find?_cons_of_pos _ (by simp)]
    rfl

theorem valuesLookup_valuesSet_other (q : Values) (p v k : GoStr) (hk : k ≠ p) :
    valuesLookup (valuesSet q p v) k = valuesLookup q k := by
  unfold valuesSet valuesLookup
  by_cases hany : q.any (fun kv => kv.1 = p)
  · rw [if_pos hany, find?_setMap_other q p v k hk]
  · rw [if_neg hany, List.find?_append, List.find?_cons_of_neg _ (by simp [Ne.symm hk])]
    cases hfind : q.find? (fun kv => kv.1 = k) with
    | none => rfl
    | some kv => rfl

/-- C9: the probe query built by `checkAppend` replaces the parameter's
entire value list by the single value `first original value ++ payload`
(extra values dropped), preserves every other parameter's value list, and
the re-encoding sorts the parameter names (`encodeQuery` renders the keys in
`sortStrings` order, each pair percent-encoded with `queryEscape`). -/
theorem c9_probe_query_shape (q : Values) (p payload v : GoStr) (vs : List GoStr)
    (hnd : (q.map Prod.fst).Nodup) (hkv : (p, v :: vs) ∈ q) :
    valuesLookup (probeQuery q p payload) p = some [v ++ payload] ∧
    (∀ k, k ≠ p → valuesLookup (probeQuery q p payload) k = valuesLookup q k) ∧
    ((sortStrings ((probeQuery q p payload).map Prod.fst)).Pairwise
      fun a b => strLe a b = true) := by
  refine ⟨?_, ?_, sortStrings_pairwise _⟩
  · unfold probeQuery
    rw [valuesGet_eq_of_nodup q p v vs hnd hkv]
    exact valuesLookup_valuesSet_self q p (v ++ payload)
  · intro k hk
    exact valuesLookup_valuesSet_other q p _ k hk

/-- C9 witness: for the sample query (`q` with values `a`,`b`; `r` with `c`)
and payload `X` appended to `q`: `q`'s value list collapses to the single
`aX`, `r` is untouched, and the encoded key order is sorted. -/
theorem c9_witness :
    valuesLookup (probeQuery qSample (gs ("q")) (gs ("X"))) (gs ("q")) =
        some [gs ("a") ++ gs ("X")] ∧
    valuesLookup (probeQuery qSample (gs ("q")) (gs ("X"))) (gs ("r")) =
        valuesLookup qSample (gs ("r")) ∧
    ((sortStrings ((probeQuery qSample (gs ("q")) (gs ("X"))).map Prod.fst)).Pairwise
      fun a b => strLe a b = true) :=
  have h := c9_probe_query_shape qSample (gs ("q")) (gs ("X")) (gs ("a")) [gs ("b")]
    (by decide) (by decide)
  ⟨h.1, h.2.1 _ (by decide), h.2.2⟩

theorem exists_mem_of_foldl_insertFinding (fs : List Finding)
    (m : GoStr → GoStr → Option (List GoStr)) (u p : GoStr) (cs : List GoStr)
    (h : fs.foldl insertFinding m u p = some cs) :
    (∃ f ∈ fs, u = f.url ∧ p = f.param ∧ f.chars = cs) ∨ m u p = some cs := by
  induction fs generalizing m with
  | nil => exact Or.inr h
  | cons f fs ih =>
    rw [List.foldl_cons] at h
    rcases ih _ h with hfs | hm
    · obtain ⟨g, hg, hrest⟩ := hfs
      exact Or.inl ⟨g, List.mem_cons_of_mem f hg, hrest⟩
    · unfold insertFinding at hm
      by_cases hc : u = f.url ∧ p = f.param
      · rw [if_pos hc] at hm
        exact Or.inl ⟨f, List.mem_cons_self f fs, hc.1, hc.2, Option.some.inj hm⟩
      · rw [if_neg hc] at hm
        exact Or.inr hm

/-- C8: every entry of a final report is justified: whatever order the
findings reach the aggregator in, a `(u, p)` entry with characters `cs`
exists only when some input line normalizes to `u`, the detector returned `p`
for `u`, and `p`'s probe produced exactly the non-empty list `cs`. -/
theorem c8_report_entries_justified (w : World) (lines : List GoStr)
    (fs : List Finding) (hperm : fs.Perm (runScan w lines)) (u p : GoStr)
    (cs : List GoStr) (hrep : aggregate fs u p = some cs) :
    ∃ raw ∈ readLines lines, normalizeURL raw = u ∧
      p ∈ findReflectedParams w u ∧ testSpecialChars w u p = cs ∧ cs ≠ [] := by
  rcases exists_mem_of_foldl_insertFinding fs emptyReport u p cs hrep with hex | hnone
  · obtain ⟨f, hf, hu, hp, hcs⟩ := hex
    have hfrun : f ∈ runScan w lines := hperm.mem_iff.mp hf
    obtain ⟨raw, hraw, hfp⟩ := List.mem_flatMap.mp hfrun
    obtain ⟨pp, hpp, hsome⟩ := List.mem_filterMap.mp hfp
    by_cases hempty : (testSpecialChars w (normalizeURL raw) pp).isEmpty
    · rw [if_pos hempty] at hsome
      exact absurd hsome (by simp)
    · rw [if_neg hempty] at hsome
      have heq : (⟨normalizeURL raw, pp, testSpecialChars w (normalizeURL raw) pp⟩ : Finding)
          = f := Option.some.inj hsome
      cases heq
      have hurl : u = normalizeURL raw := hu
      have hparam : p = pp := hp
      have hchars : testSpecialChars w (normalizeURL raw) pp = cs := hcs
      refine ⟨raw, hraw, hurl.symm, ?_, ?_, ?_⟩
      · rw [hurl, hparam]
        exact hpp
      · rw [hurl, hparam]
        exact hchars
      · exact fun h0 => hempty (by rw [hchars, h0]; rfl)
  · exact absurd hnone (by simp [emptyReport])

/-- C8 witness: scanning the single line `u?q=a` in `probeWorld` produces the
report entry mapping `(u?q=a, q)` to exactly the unfiltered list `["]`, and
the entry is justified by the detector and the prober. -/
theorem c8_witness :
    aggregate (runScan probeWorld [gs ("u?q=a")]) (gs ("u?q=a")) (gs ("q")) =
        some [[Char.ofNat 34]] ∧
    ∃ raw ∈ readLines [gs ("u?q=a")], normalizeURL raw = gs ("u?q=a") ∧
      gs ("q") ∈ findReflectedParams probeWorld (gs ("u?q=a")) ∧
      testSpecialChars probeWorld (gs ("u?q=a")) (gs ("q")) = [[Char.ofNat 34]] ∧
      ([[Char.ofNat 34]] : List GoStr) ≠ [] :=
  ⟨by decide, c8_report_entries_justified probeWorld [gs ("u?q=a")] _ (List.Perm.refl _)
    (gs ("u?q=a")) (gs ("q")) [[Char.ofNat 34]] (by decide)⟩
